import Mathlib

/-!
Verification development for the cis-bench config-driven mapping/templating
engine: the variable-substitution language, the generic metadata generator,
the compliance-identifier deduplication service, the hierarchical-reference
encoder, and the serialized-document post-processing pipeline.

Pure helpers are embedded at the level of character lists so that the Python
string operations (`str.split`, `str.zfill`, regex token scanning) have
faithful, executable counterparts.
-/

namespace CisBench

/-- Split a list of characters on the dot character, mirroring Python
`str.split(".")`: the empty input yields a single empty segment, and a
trailing dot yields a trailing empty segment. -/
def splitOnDot : List Char → List (List Char)
  | [] => [[]]
  | c :: rest =>
    match splitOnDot rest with
    | [] => [[]]
    | seg :: segs => if c = '.' then [] :: seg :: segs else (c :: seg) :: segs

/-- Left-pad a segment with zeros to width 2, mirroring Python `str.zfill(2)`
on non-negative digit strings: segments of length 2 or more are kept whole. -/
def zfill2 (seg : List Char) : List Char :=
  List.replicate (2 - seg.length) '0' ++ seg

/-- Modelled from the spec: the hierarchical-reference encoder
(`MappingEngine.ref_to_stig_number`, whose implementation module
`exporters/mapping_engine.py` is not in the source tree) splits the dotted
reference on `.`, zero-pads each segment to width 2 and concatenates the
padded segments with no separator. -/
def ref_to_stig_number (ref : String) : String :=
  ⟨((splitOnDot ref.toList).map zfill2).flatten⟩

/-- Join segments with a literal dot separator: the inverse image builder used
to state round-trip properties of `splitOnDot`. -/
def joinDots : List (List Char) → List Char
  | [] => []
  | [seg] => seg
  | seg :: rest => seg ++ '.' :: joinDots rest

theorem splitOnDot_ne_nil (cs : List Char) : splitOnDot cs ≠ [] := by
  induction cs with
  | nil => simp [splitOnDot]
  | cons c rest ih =>
    simp only [splitOnDot]
    cases h : splitOnDot rest with
    | nil => simp
    | cons seg segs =>
      by_cases hc : c = '.' <;> simp [hc]

theorem splitOnDot_no_dot (cs : List Char) (h : '.' ∉ cs) : splitOnDot cs = [cs] := by
  induction cs with
  | nil => rfl
  | cons c rest ih =>
    simp only [List.mem_cons, not_or] at h
    simp only [splitOnDot, ih h.2]
    have hc : c ≠ '.' := fun hh => h.1 hh.symm
    simp [hc]

theorem splitOnDot_dot_cons (rest : List Char) :
    splitOnDot ('.' :: rest) = [] :: splitOnDot rest := by
  simp only [splitOnDot]
  cases h : splitOnDot rest with
  | nil => exact absurd h (splitOnDot_ne_nil rest)
  | cons seg segs => simp

theorem splitOnDot_seg_append (seg rest : List Char) (h : '.' ∉ seg) :
    splitOnDot (seg ++ '.' :: rest) = seg :: splitOnDot rest := by
  induction seg with
  | nil => simpa using splitOnDot_dot_cons rest
  | cons c cs ih =>
    simp only [List.mem_cons, not_or] at h
    have hc : c ≠ '.' := fun hh => h.1 hh.symm
    simp only [List.cons_append, splitOnDot, List.append_eq]
    rw [ih h.2]
    simp [hc]

theorem splitOnDot_joinDots (segs : List (List Char)) (h1 : segs ≠ [])
    (h2 : ∀ s ∈ segs, '.' ∉ s) : splitOnDot (joinDots segs) = segs := by
  induction segs with
  | nil => exact absurd rfl h1
  | cons s rest ih =>
    cases rest with
    | nil =>
      simp only [joinDots]
      exact splitOnDot_no_dot s (h2 s (by simp))
    | cons s2 rest2 =>
      have hs : '.' ∉ s := h2 s (by simp)
      simp only [joinDots, splitOnDot_seg_append s _ hs]
      rw [ih (by simp) (fun t ht => h2 t (List.mem_cons_of_mem s ht))]

/-- Keep the first occurrence of every value, in first-occurrence order:
the order-preserving set semantics used for grouping keys and deduplicated
residual citation lists. -/
def firstOccurrences : List String → List String
  | [] => []
  | k :: rest => k :: firstOccurrences (rest.filter (fun j => j ≠ k))
termination_by l => l.length
decreasing_by
  simp only [List.length_cons]
  exact Nat.lt_succ_of_le (List.length_filter_le _ _)

theorem mem_firstOccurrences (x : String) (l : List String) :
    x ∈ firstOccurrences l ↔ x ∈ l := by
  induction l using firstOccurrences.induct with
  | case1 => simp [firstOccurrences]
  | case2 k rest ih =>
    simp only [firstOccurrences, List.mem_cons, ih, List.mem_filter]
    constructor
    · rintro (rfl | ⟨hx, _⟩)
      · exact Or.inl rfl
      · exact Or.inr hx
    · rintro (rfl | hx)
      · exact Or.inl rfl
      · by_cases hxk : x = k
        · exact Or.inl hxk
        · exact Or.inr ⟨hx, by simp [hxk]⟩

theorem nodup_firstOccurrences (l : List String) : (firstOccurrences l).Nodup := by
  induction l using firstOccurrences.induct with
  | case1 => simp [firstOccurrences]
  | case2 k rest ih =>
    simp only [firstOccurrences, List.nodup_cons]
    refine ⟨fun hk => ?_, ih⟩
    rw [mem_firstOccurrences, List.mem_filter] at hk
    simp at hk

/-! ## Variable substitution (`VariableSubstituter.substitute`) -/

/-- Execution-context values: the nested mapping/scalar structure templates
are resolved against. `vnone` models Python `None`, `vstr` a scalar string,
`vlist` a sequence, `vobj` a nested mapping or attribute-bearing object. -/
inductive CtxVal where
  | vnone : CtxVal
  | vstr : String → CtxVal
  | vlist : List CtxVal → CtxVal
  | vobj : List (String × CtxVal) → CtxVal
deriving Inhabited

/-- Field lookup in an object context, first binding wins. -/
def ctxLookup (fields : List (String × CtxVal)) (k : String) : Option CtxVal :=
  (fields.find? (fun kv => kv.1 == k)).map (fun kv => kv.2)

/-- Stringification of a leaf value: Python `str(None)` is the literal
string `None` (documented compatibility quirk of the substituter). -/
def stringifyLeaf : CtxVal → String
  | CtxVal.vnone => "None"
  | CtxVal.vstr s => s
  | CtxVal.vlist _ => ""
  | CtxVal.vobj _ => ""

/-- Modelled from the spec: resolution of a dot-separated key chain through
the execution context (`VariableSubstituter`, whose implementation module
`exporters/mapping_engine.py` is not in the source tree). A missing key or a
`None`/scalar intermediate at any step yields the empty string; a `None`
leaf stringifies to the literal string `None`. -/
def resolvePath : List String → CtxVal → String
  | [], v => stringifyLeaf v
  | k :: ks, CtxVal.vobj fields =>
    match ctxLookup fields k with
    | some v => resolvePath ks v
    | none => ""
  | _ :: _, CtxVal.vnone => ""
  | _ :: _, CtxVal.vstr _ => ""
  | _ :: _, CtxVal.vlist _ => ""

/-- Split a token on dots and pack the segments as strings. -/
def splitPath (tok : List Char) : List String :=
  (splitOnDot tok).map (fun seg => ⟨seg⟩)

theorem length_dropWhile_le_aux (p : Char → Bool) (l : List Char) :
    (l.dropWhile p).length ≤ l.length := by
  induction l with
  | nil => simp [List.dropWhile]
  | cons c cs ih =>
    rw [List.dropWhile_cons]
    split
    · exact Nat.le_succ_of_le ih
    · simp

/-- Character-level scan of a template: a brace-opened token is collected up
to the next closing brace, resolved through the context and spliced in; all
other characters are copied unchanged. An unclosed opening brace is copied
literally. -/
def subChars (ctx : CtxVal) (cs : List Char) : List Char :=
  match cs with
  | [] => []
  | c :: rest =>
    if c = '{' then
      if hd : rest.dropWhile (fun d => d ≠ '}') = [] then c :: subChars ctx rest
      else
        (resolvePath (splitPath (rest.takeWhile (fun d => d ≠ '}'))) ctx).toList
          ++ subChars ctx ((rest.dropWhile (fun d => d ≠ '}')).tail)
    else c :: subChars ctx rest
termination_by cs.length
decreasing_by
  · simp
  · have h1 := length_dropWhile_le_aux (fun d => d ≠ '}') rest
    have h2 := List.length_pos.mpr hd
    simp only [List.length_cons, List.length_tail]
    omega
  · simp

/-- Modelled from the spec: `VariableSubstituter.substitute(template, context)`
(implementation module `exporters/mapping_engine.py` is not in the source
tree) replaces every brace-delimited dot-path token by its resolved value and
is total: it never raises. -/
def substitute (template : String) (ctx : CtxVal) : String :=
  ⟨subChars ctx template.toList⟩

/-- A parsed template part: literal text or a brace-delimited dot-path token. -/
inductive TPart where
  | lit : String → TPart
  | tok : List String → TPart

/-- The characters a template part denotes in the template source text. -/
def partChars : TPart → List Char
  | TPart.lit s => s.toList
  | TPart.tok p => '{' :: (joinDots (p.map String.toList) ++ ['}'])

/-- Rebuild the template string from its parts. -/
def buildTemplate (parts : List TPart) : String :=
  ⟨(parts.map partChars).flatten⟩

/-- The rendering of one template part under a context. -/
def renderPart (ctx : CtxVal) : TPart → String
  | TPart.lit s => s
  | TPart.tok p => resolvePath p ctx

/-- Well-formedness of a template part: literal text carries no opening
brace, and token path segments carry neither dots nor closing braces. -/
def WFPart : TPart → Prop
  | TPart.lit s => '{' ∉ s.toList
  | TPart.tok p => p ≠ [] ∧ ∀ seg ∈ p, ∀ c ∈ seg.toList, c ≠ '.' ∧ c ≠ '}'

theorem subChars_copy (ctx : CtxVal) (s tail : List Char) (h : '{' ∉ s) :
    subChars ctx (s ++ tail) = s ++ subChars ctx tail := by
  induction s with
  | nil => simp
  | cons c cs ih =>
    simp only [List.mem_cons, not_or] at h
    have hc : c ≠ '{' := fun hh => h.1 hh.symm
    rw [List.cons_append, subChars, if_neg hc, ih h.2]
    rfl

theorem takeWhile_closed (l t : List Char) (h : ∀ c ∈ l, c ≠ '}') :
    (l ++ '}' :: t).takeWhile (fun d => d ≠ '}') = l := by
  induction l with
  | nil =>
    rw [List.nil_append, List.takeWhile_cons]
    simp
  | cons c cs ih =>
    have hc : c ≠ '}' := h c (List.mem_cons_self c cs)
    rw [List.cons_append, List.takeWhile_cons]
    have hdec : (decide (c ≠ '}')) = true := by simp [hc]
    rw [hdec, if_pos rfl, ih (fun d hd => h d (List.mem_cons_of_mem c hd))]

theorem dropWhile_closed (l t : List Char) (h : ∀ c ∈ l, c ≠ '}') :
    (l ++ '}' :: t).dropWhile (fun d => d ≠ '}') = '}' :: t := by
  induction l with
  | nil =>
    rw [List.nil_append, List.dropWhile_cons]
    simp
  | cons c cs ih =>
    have hc : c ≠ '}' := h c (List.mem_cons_self c cs)
    rw [List.cons_append, List.dropWhile_cons]
    have hdec : (decide (c ≠ '}')) = true := by simp [hc]
    rw [hdec, if_pos rfl, ih (fun d hd => h d (List.mem_cons_of_mem c hd))]

theorem subChars_open (ctx : CtxVal) (tk tail : List Char)
    (hno : ∀ c ∈ tk, c ≠ '}') :
    subChars ctx ('{' :: (tk ++ '}' :: tail)) =
      (resolvePath (splitPath tk) ctx).toList ++ subChars ctx tail := by
  rw [subChars, if_pos rfl]
  rw [dropWhile_closed tk tail hno, takeWhile_closed tk tail hno]
  rw [dif_neg (by simp)]
  rfl

theorem splitPath_joinDots (p : List String) (hne : p ≠ [])
    (hseg : ∀ seg ∈ p, ∀ c ∈ seg.toList, c ≠ '.') :
    splitPath (joinDots (p.map String.toList)) = p := by
  unfold splitPath
  rw [splitOnDot_joinDots (p.map String.toList) (by simpa using hne)
      (by
        intro s hs
        rcases List.mem_map.mp hs with ⟨seg, hseg', rfl⟩
        intro hdot
        exact hseg seg hseg' '.' hdot rfl)]
  rw [List.map_map]
  have : (fun seg => (⟨seg⟩ : String)) ∘ String.toList = id := by
    funext s
    rfl
  rw [this, List.map_id]

theorem joinDots_no_close (p : List String)
    (hseg : ∀ seg ∈ p, ∀ c ∈ seg.toList, c ≠ '.' ∧ c ≠ '}') :
    ∀ c ∈ joinDots (p.map String.toList), c ≠ '}' := by
  intro c hc
  induction p with
  | nil => simp [joinDots] at hc
  | cons s rest ih =>
    cases rest with
    | nil =>
      simp only [List.map_cons, List.map_nil, joinDots] at hc
      exact (hseg s (by simp) c hc).2
    | cons s2 rest2 =>
      simp only [List.map_cons, joinDots, List.mem_append, List.mem_cons] at hc
      rcases hc with hc | hc | hc
      · exact (hseg s (by simp) c hc).2
      · rw [hc]
        intro hcontra
        exact absurd hcontra (by decide)
      · refine ih ?_ ?_
        · intro seg hs c' hc'
          exact hseg seg (List.mem_cons_of_mem s hs) c' hc'
        · simpa [List.map_cons, joinDots] using hc

/-- The concatenated char-level rendering of a part list under a context. -/
def renderParts (ctx : CtxVal) (parts : List TPart) : String :=
  ⟨(parts.map (fun pt => (renderPart ctx pt).toList)).flatten⟩

/-- The rendering of a well-formed template: literal parts verbatim, token
parts through path resolution. -/
theorem substitute_renders (parts : List TPart) (ctx : CtxVal)
    (hwf : ∀ pt ∈ parts, WFPart pt) :
    substitute (buildTemplate parts) ctx = renderParts ctx parts := by
  have main : subChars ctx ((parts.map partChars).flatten) =
      (parts.map (fun pt => (renderPart ctx pt).toList)).flatten := by
    induction parts with
    | nil => simp [subChars]
    | cons pt rest ih =>
      have hrest := ih (fun q hq => hwf q (List.mem_cons_of_mem pt hq))
      cases pt with
      | lit s =>
        simp only [List.map_cons, List.flatten_cons, partChars]
        rw [subChars_copy ctx s.toList _ (hwf (TPart.lit s) (by simp))]
        rw [hrest]
        rfl
      | tok p =>
        have hw := hwf (TPart.tok p) (by simp)
        simp only [WFPart] at hw
        simp only [List.map_cons, List.flatten_cons, partChars]
        rw [List.cons_append, List.append_assoc, List.singleton_append]
        rw [subChars_open ctx _ _ (joinDots_no_close p hw.2)]
        rw [splitPath_joinDots p hw.1 (fun seg hs c hc => (hw.2 seg hs c hc).1)]
        rw [hrest]
        rfl
  exact congrArg String.mk main

/-! ## Claims C5, C4, C9 -/

/-- C5: the hierarchical-reference encoder splits the dotted reference on
dots, left-pads each segment with zeros to width 2 (segments of two or more
digits kept whole, as the `10.11.12` example shows), and concatenates the
padded segments with no separator; in particular it maps `3.2.1` to
`030201`, `10.11.12` to `101112`, and `5` to `05`. -/
theorem claim_C5_hierarchical_encoder (segs : List (List Char))
    (h1 : segs ≠ []) (h2 : ∀ s ∈ segs, '.' ∉ s) :
    ref_to_stig_number ⟨joinDots segs⟩ = ⟨(segs.map zfill2).flatten⟩ ∧
    ref_to_stig_number "3.2.1" = "030201" ∧
    ref_to_stig_number "10.11.12" = "101112" ∧
    ref_to_stig_number "5" = "05" := by
  refine ⟨?_, by decide, by decide, by decide⟩
  unfold ref_to_stig_number
  rw [show (⟨joinDots segs⟩ : String).toList = joinDots segs from rfl]
  rw [splitOnDot_joinDots segs h1 h2]

theorem claim_C5_witness :
    ref_to_stig_number ⟨joinDots [['3'], ['2'], ['1']]⟩ =
      ⟨([['3'], ['2'], ['1']].map zfill2).flatten⟩ ∧
    ref_to_stig_number "3.2.1" = "030201" ∧
    ref_to_stig_number "10.11.12" = "101112" ∧
    ref_to_stig_number "5" = "05" :=
  claim_C5_hierarchical_encoder [['3'], ['2'], ['1']] (by decide) (by decide)

/-- C4: `substitute` is a total function (it never raises); a well-formed
template renders part by part with every literal character preserved
unchanged, and a token whose dot-separated key chain hits a missing key or a
`None`/scalar intermediate at any resolution step renders as the empty
string. -/
theorem claim_C4_substitute_missing_keys (parts : List TPart) (ctx : CtxVal)
    (hwf : ∀ pt ∈ parts, WFPart pt) :
    substitute (buildTemplate parts) ctx = renderParts ctx parts ∧
    (∀ (k : String) (ks : List String) fields, ctxLookup fields k = none →
      resolvePath (k :: ks) (CtxVal.vobj fields) = "") ∧
    (∀ (k : String) (ks : List String),
      resolvePath (k :: ks) CtxVal.vnone = "") ∧
    (∀ (k : String) (ks : List String) (s : String),
      resolvePath (k :: ks) (CtxVal.vstr s) = "") ∧
    (∀ (k : String) (ks : List String) (l : List CtxVal),
      resolvePath (k :: ks) (CtxVal.vlist l) = "") ∧
    (∀ (k : String) (ks : List String) fields v, ctxLookup fields k = some v →
      resolvePath (k :: ks) (CtxVal.vobj fields) = resolvePath ks v) := by
  refine ⟨substitute_renders parts ctx hwf, ?_, ?_, ?_, ?_, ?_⟩
  · intro k ks fields h
    simp [resolvePath, h]
  · intro k ks
    simp [resolvePath]
  · intro k ks s
    simp [resolvePath]
  · intro k ks l
    simp [resolvePath]
  · intro k ks fields v h
    simp [resolvePath, h]

/-- Concrete template parts for the C4 witness: the test case
`Value: {top.missing.key}` against a context whose `top` object is empty. -/
def c4parts : List TPart := [TPart.lit "Value: ", TPart.tok ["top", "missing", "key"]]

/-- Concrete context for the C4 witness. -/
def c4ctx : CtxVal := CtxVal.vobj [("top", CtxVal.vobj [])]

theorem claim_C4_witness :
    substitute (buildTemplate c4parts) c4ctx = renderParts c4ctx c4parts ∧
    renderParts c4ctx c4parts = "Value: " := by
  refine ⟨(claim_C4_substitute_missing_keys c4parts c4ctx ?_).1, by decide⟩
  intro pt hpt
  rcases List.mem_cons.mp hpt with rfl | hpt
  · show '{' ∉ ("Value: ").toList
    decide
  · rcases List.mem_singleton.mp hpt with rfl
    exact ⟨by simp, by decide⟩

/-- C9: a token whose resolution reaches a `None` leaf (the final key exists
and is bound to `None`) substitutes the literal string `None`, not the empty
string. -/
theorem claim_C9_none_leaf (k : String) (fields : List (String × CtxVal))
    (hk : ∀ c ∈ k.toList, c ≠ '.' ∧ c ≠ '}')
    (hlk : ctxLookup fields k = some CtxVal.vnone) :
    substitute (buildTemplate [TPart.tok [k]]) (CtxVal.vobj fields) = "None" := by
  rw [substitute_renders _ _ (fun pt hpt => by
    rcases List.mem_singleton.mp hpt with rfl
    exact ⟨by simp, fun seg hs => by
      rcases List.mem_singleton.mp hs with rfl
      exact hk⟩)]
  have h1 : resolvePath [k] (CtxVal.vobj fields) = "None" := by
    simp [resolvePath, hlk, stringifyLeaf]
  simp [renderParts, renderPart, h1]

theorem claim_C9_witness :
    substitute (buildTemplate [TPart.tok ["platform"]])
      (CtxVal.vobj [("platform", CtxVal.vnone)]) = "None" :=
  claim_C9_none_leaf "platform" [("platform", CtxVal.vnone)] (by decide) rfl

/-! ## Compliance-identifier lookup and deduplication (claim C1) -/

/-- One entry of the compliance-identifier reference table: a derived
identifier (CCI) together with the secondary-framework control it maps to. -/
structure CCIMapping where
  cci : String
  nist_control : String
deriving DecidableEq

/-- Modelled from the spec: `CCILookupService._get_base_nist_control`
(implementation module `utils/cci_lookup.py` is not in the source tree)
strips any parenthesized enhancement suffix and any sub-control dot-suffix,
so `CM-7.1(5)` has base `CM-7`. -/
def get_base_nist_control (s : String) : String :=
  ⟨(s.toList.takeWhile (fun c => c ≠ '(')).takeWhile (fun c => c ≠ '.')⟩

/-- Modelled from the spec: `CCILookupService.lookup` concatenates, in input
order, the table rows for each primary control id. The table itself is the
static read-only reference asset. -/
def lookup_ccis (table : String → List CCIMapping) (controlIds : List String) :
    List CCIMapping :=
  (controlIds.map table).flatten

/-- The bases of every secondary id implied by the looked-up identifiers. -/
def coveredBases (table : String → List CCIMapping) (controlIds : List String) :
    List String :=
  (lookup_ccis table controlIds).map (fun m => get_base_nist_control m.nist_control)

/-- Modelled from the spec: `CCILookupService.deduplicate_nist_controls`
(implementation module `utils/cci_lookup.py` is not in the source tree)
returns the looked-up identifiers together with the residual cited ids:
those whose base is covered by no implied secondary id, deduplicated by
value in first-occurrence order. -/
def deduplicate_nist_controls (table : String → List CCIMapping)
    (cisIds citedNist : List String) : List CCIMapping × List String :=
  (lookup_ccis table cisIds,
   firstOccurrences (citedNist.filter
     (fun n => decide (get_base_nist_control n ∉ coveredBases table cisIds))))

theorem mem_coveredBases (table : String → List CCIMapping) (ids : List String)
    (b : String) :
    b ∈ coveredBases table ids ↔
      ∃ cid ∈ ids, ∃ m ∈ table cid, get_base_nist_control m.nist_control = b := by
  simp only [coveredBases, lookup_ccis, List.mem_map, List.mem_flatten]
  constructor
  · rintro ⟨m, ⟨l, ⟨cid, hcid, rfl⟩, hm⟩, rfl⟩
    exact ⟨cid, hcid, m, hm, rfl⟩
  · rintro ⟨cid, hcid, m, hm, rfl⟩
    exact ⟨m, ⟨table cid, ⟨cid, hcid, rfl⟩, hm⟩, rfl⟩

theorem mem_residual (table : String → List CCIMapping)
    (cisIds citedNist : List String) (x : String) :
    x ∈ (deduplicate_nist_controls table cisIds citedNist).2 ↔
      x ∈ citedNist ∧ get_base_nist_control x ∉ coveredBases table cisIds := by
  simp only [deduplicate_nist_controls, mem_firstOccurrences, List.mem_filter,
    decide_eq_true_eq]

/-- C1: the residual of `deduplicate` is exactly the set of cited ids whose
base is covered by no implied secondary id; it has no duplicate values; it
is the same set for any reordering or duplication of the two input lists;
and with an empty primary-control list every cited id is residual. -/
theorem claim_C1_deduplicate_residual (table : String → List CCIMapping)
    (cisIds citedNist cisIds' citedNist' : List String)
    (hc : ∀ x, x ∈ cisIds' ↔ x ∈ cisIds)
    (hn : ∀ x, x ∈ citedNist' ↔ x ∈ citedNist) :
    ((deduplicate_nist_controls table cisIds citedNist).2).toFinset =
      citedNist.toFinset.filter
        (fun n => get_base_nist_control n ∉ coveredBases table cisIds) ∧
    ((deduplicate_nist_controls table cisIds citedNist).2).Nodup ∧
    ((deduplicate_nist_controls table cisIds' citedNist').2).toFinset =
      ((deduplicate_nist_controls table cisIds citedNist).2).toFinset ∧
    ((deduplicate_nist_controls table [] citedNist).2).toFinset =
      citedNist.toFinset := by
  refine ⟨?_, nodup_firstOccurrences _, ?_, ?_⟩
  · ext x
    simp [mem_residual, Finset.mem_filter, List.mem_toFinset]
  · ext x
    have hcov : ∀ b, b ∈ coveredBases table cisIds' ↔ b ∈ coveredBases table cisIds := by
      intro b
      rw [mem_coveredBases, mem_coveredBases]
      constructor
      · rintro ⟨cid, hcid, m, hm, rfl⟩
        exact ⟨cid, (hc cid).mp hcid, m, hm, rfl⟩
      · rintro ⟨cid, hcid, m, hm, rfl⟩
        exact ⟨cid, (hc cid).mpr hcid, m, hm, rfl⟩
    simp only [List.mem_toFinset, mem_residual, hn, hcov]
  · ext x
    simp [mem_residual, coveredBases, lookup_ccis]

theorem claim_C1_witness :
    ((deduplicate_nist_controls (fun _ => []) ([] : List String) ["CM-7"]).2).toFinset =
      (["CM-7"] : List String).toFinset.filter
        (fun n => get_base_nist_control n ∉ coveredBases (fun _ => []) []) ∧
    ((deduplicate_nist_controls (fun _ => []) ([] : List String) ["CM-7"]).2).Nodup ∧
    ((deduplicate_nist_controls (fun _ => []) ([] : List String) ["CM-7", "CM-7"]).2).toFinset =
      ((deduplicate_nist_controls (fun _ => []) ([] : List String) ["CM-7"]).2).toFinset ∧
    ((deduplicate_nist_controls (fun _ => []) ([] : List String) ["CM-7"]).2).toFinset =
      (["CM-7"] : List String).toFinset :=
  claim_C1_deduplicate_residual (fun _ => []) [] ["CM-7"] [] ["CM-7", "CM-7"]
    (by simp) (by simp)

/-! ## Grouping by key in first-occurrence order (claim C7) -/

/-- One step of the imperative grouping loop: append the item to its key's
group if the key was already seen, otherwise open a new group at the end
(insertion order, as a Python dict of lists). -/
def insertItem {α : Type} (acc : List (String × List α)) (k : String) (it : α) :
    List (String × List α) :=
  match acc with
  | [] => [(k, [it])]
  | (k', l) :: rest =>
    if k' = k then (k', l ++ [it]) :: rest else (k', l) :: insertItem rest k it

/-- Modelled from the spec: the metadata generator's grouping pass
(`exporters/mapping_engine.py` is not in the source tree) partitions items
by the evaluated group key in one pass over the input, keeping insertion
order of groups and of items within each group. -/
def groupByKey {α : Type} (key : α → String) (items : List α) :
    List (String × List α) :=
  items.foldl (fun acc it => insertItem acc (key it) it) []

/-- The spec-side description of grouping: group keys in first-occurrence
order, each key paired with the input-order sublist of items carrying it. -/
def groupSpec {α : Type} (key : α → String) (items : List α) :
    List (String × List α) :=
  (firstOccurrences (items.map key)).map
    (fun k => (k, items.filter (fun it => decide (key it = k))))

theorem firstOccurrences_cons (k : String) (rest : List String) :
    firstOccurrences (k :: rest) =
      k :: firstOccurrences (rest.filter (fun j => decide (j ≠ k))) := by
  rw [firstOccurrences]

theorem firstOccurrences_append_singleton (xs : List String) (x : String) :
    firstOccurrences (xs ++ [x]) =
      if x ∈ xs then firstOccurrences xs else firstOccurrences xs ++ [x] := by
  induction xs using firstOccurrences.induct with
  | case1 => simp [firstOccurrences]
  | case2 k rest ih =>
    rw [List.cons_append, firstOccurrences_cons, List.filter_append]
    by_cases hxk : x = k
    · subst hxk
      have e1 : List.filter (fun j => decide (j ≠ x)) [x] = [] := by simp
      rw [e1, List.append_nil, if_pos (List.mem_cons_self x rest)]
      rw [firstOccurrences_cons]
    · have e1 : List.filter (fun j => decide (j ≠ k)) [x] = [x] := by simp [hxk]
      rw [e1, ih]
      have hmem : x ∈ List.filter (fun j => decide (j ≠ k)) rest ↔ x ∈ rest := by
        simp [List.mem_filter, hxk]
      by_cases hx : x ∈ rest
      · rw [if_pos (hmem.mpr hx), if_pos (List.mem_cons_of_mem k hx)]
        rw [firstOccurrences_cons]
      · rw [if_neg (fun hc => hx (hmem.mp hc)), if_neg (by simp [hxk, hx])]
        rw [firstOccurrences_cons]
        simp

theorem insertItem_not_mem {α : Type} (acc : List (String × List α)) (k : String)
    (it : α) (hk : k ∉ acc.map Prod.fst) :
    insertItem acc k it = acc ++ [(k, [it])] := by
  induction acc with
  | nil => rfl
  | cons g rest ih =>
    obtain ⟨k', l⟩ := g
    simp only [List.map_cons, List.mem_cons, not_or] at hk
    rw [insertItem, if_neg (fun h => hk.1 h.symm), ih hk.2]
    rfl

theorem insertItem_map {α : Type} (ks : List String) (f g : String → List α)
    (k : String) (it : α) (hk : k ∈ ks) (hnd : ks.Nodup)
    (hfg : ∀ k' ∈ ks, k' ≠ k → f k' = g k') (hkk : g k = f k ++ [it]) :
    insertItem (ks.map (fun k' => (k', f k'))) k it =
      ks.map (fun k' => (k', g k')) := by
  induction ks with
  | nil => simp at hk
  | cons k' rest ih =>
    rcases List.nodup_cons.mp hnd with ⟨hk'rest, hndrest⟩
    by_cases he : k' = k
    · subst he
      rw [List.map_cons, List.map_cons, insertItem, if_pos rfl, ← hkk]
      congr 1
      refine List.map_congr_left (fun k'' hk'' => ?_)
      have hne : k'' ≠ k' := fun hc => hk'rest (hc ▸ hk'')
      rw [hfg k'' (List.mem_cons_of_mem _ hk'') hne]
    · have hkrest : k ∈ rest := by
        rcases List.mem_cons.mp hk with rfl | h
        · exact absurd rfl he
        · exact h
      rw [List.map_cons, List.map_cons, insertItem, if_neg he]
      rw [ih hkrest hndrest (fun k'' h1 h2 => hfg k'' (List.mem_cons_of_mem _ h1) h2)]
      rw [hfg k' (List.mem_cons_self _ _) he]

theorem groupSpec_keys {α : Type} (key : α → String) (items : List α) :
    (groupSpec key items).map Prod.fst = firstOccurrences (items.map key) := by
  unfold groupSpec
  rw [List.map_map]
  rw [show (Prod.fst ∘ fun k => (k, items.filter (fun j => decide (key j = k)))) = id
    from funext (fun k => rfl), List.map_id]

theorem groupSpec_append_singleton {α : Type} (key : α → String)
    (items : List α) (it : α) :
    groupSpec key (items ++ [it]) = insertItem (groupSpec key items) (key it) it := by
  have hsingle : ∀ k : String, List.filter (fun j => decide (key j = k)) [it] =
      if key it = k then [it] else [] := by
    intro k
    by_cases h : key it = k
    · simp [h]
    · simp [h]
  unfold groupSpec
  rw [List.map_append, List.map_cons, List.map_nil,
    firstOccurrences_append_singleton (items.map key) (key it)]
  by_cases hmem : key it ∈ items.map key
  · rw [if_pos hmem]
    rw [insertItem_map (firstOccurrences (items.map key))
      (fun k => items.filter (fun j => decide (key j = k)))
      (fun k => (items ++ [it]).filter (fun j => decide (key j = k)))
      (key it) it ((mem_firstOccurrences _ _).mpr hmem) (nodup_firstOccurrences _)
      ?_ ?_]
    · intro k' _ hne
      show items.filter (fun j => decide (key j = k')) =
        (items ++ [it]).filter (fun j => decide (key j = k'))
      rw [List.filter_append, hsingle k', if_neg (fun h => hne h.symm)]
      rw [List.append_nil]
    · show (items ++ [it]).filter (fun j => decide (key j = key it)) =
        items.filter (fun j => decide (key j = key it)) ++ [it]
      rw [List.filter_append, hsingle (key it), if_pos rfl]
  · rw [if_neg hmem, List.map_append, List.map_cons, List.map_nil]
    rw [insertItem_not_mem _ _ _ (by
      rw [List.map_map]
      rw [show (Prod.fst ∘ fun k => (k, items.filter (fun j => decide (key j = k)))) = id
        from funext (fun k => rfl), List.map_id]
      exact fun hc => hmem ((mem_firstOccurrences _ _).mp hc))]
    congr 1
    · refine List.map_congr_left (fun k hk => ?_)
      have hne : key it ≠ k := by
        intro hc
        exact hmem (hc ▸ (mem_firstOccurrences _ _).mp hk)
      show (k, (items ++ [it]).filter (fun j => decide (key j = k))) =
        (k, items.filter (fun j => decide (key j = k)))
      rw [List.filter_append, hsingle k, if_neg hne, List.append_nil]
    · have hnil : items.filter (fun j => decide (key j = key it)) = [] := by
        rw [List.filter_eq_nil_iff]
        intro j hj hc
        exact hmem (List.mem_map.mpr ⟨j, hj, by simpa using hc⟩)
      rw [List.filter_append, hsingle (key it), if_pos rfl, hnil, List.nil_append]

/-- C7: the one-pass grouping loop computes exactly the spec-side partition:
group keys appear in first-occurrence order of the input (not sorted), every
item lands in exactly the group of its key, and within each group the items
keep their relative input order (each group is an input-order filter). -/
theorem claim_C7_grouping (α : Type) (key : α → String) (items : List α) :
    groupByKey key items = groupSpec key items ∧
    (groupByKey key items).map Prod.fst = firstOccurrences (items.map key) := by
  have main : groupByKey key items = groupSpec key items := by
    induction items using List.reverseRecOn with
    | nil => simp [groupByKey, groupSpec, firstOccurrences]
    | append_singleton l a ih =>
      unfold groupByKey at ih ⊢
      rw [List.foldl_append, List.foldl_cons, List.foldl_nil, ih,
        ← groupSpec_append_singleton]
  refine ⟨main, ?_⟩
  rw [main]
  unfold groupSpec
  rw [List.map_map]
  rw [show (Prod.fst ∘ fun k => (k, items.filter (fun j => decide (key j = k)))) = id
    from funext (fun k => rfl), List.map_id]

/-! ## Output elements and the generic metadata generator (claim C6) -/

/-- A serialized-tree element: namespace URI of the tag, local tag name,
namespace declarations carried by the element (`xmlns=` for a `none`
prefix, `xmlns:p=` for `some p`), attributes, text content, children. -/
inductive Element where
  | mk (nsUri : Option String) (localName : String)
       (nsDecls : List (Option String × String))
       (attrs : List (String × String))
       (text : String)
       (children : List Element)

def Element.localName : Element → String
  | Element.mk _ ln _ _ _ _ => ln

def Element.children : Element → List Element
  | Element.mk _ _ _ _ _ cs => cs

def Element.nsDecls : Element → List (Option String × String)
  | Element.mk _ _ d _ _ _ => d

/-- One child declaration of a metadata spec. -/
structure ChildSpec where
  element : String
  content : Option String
  for_each : Bool
  attributes : List (String × String)

/-- The per-item element template of a grouped metadata spec. -/
structure ItemElemSpec where
  element : String
  attributes : List (String × String)
  children : List ChildSpec

/-- The per-group element template of a grouped metadata spec. -/
structure GroupElemSpec where
  element : String
  attributes : List (String × String)
  item_element : ItemElemSpec

/-- The recursive declarative metadata spec of a field mapping: root element
name, namespace and optional prefix, `allow_empty`, optional grouping
expression with its group template, root attributes and plain children. -/
structure MetadataSpec where
  root_element : String
  ns : String
  nsPrefix : Option String
  allow_empty : Bool
  group_by : Option String
  group_element : Option GroupElemSpec
  attributes : List (String × String)
  children : List ChildSpec

/-- Render attribute templates through the substituter. -/
def renderAttrs (ctx : CtxVal) (attrs : List (String × String)) :
    List (String × String) :=
  attrs.map (fun kv => (kv.1, substitute kv.2 ctx))

/-- The per-item template context: the item bound to the name `item`. -/
def itemCtx (it : CtxVal) : CtxVal := CtxVal.vobj [("item", it)]

/-- Render one declared child element. -/
def renderChild (spec : MetadataSpec) (ctx : CtxVal) (c : ChildSpec) : Element :=
  Element.mk (some spec.ns) c.element [] (renderAttrs ctx c.attributes)
    (match c.content with
     | some t => substitute t ctx
     | none => "") []

/-- Render the children of a non-grouped spec: once per item for `for_each`
children, once in total otherwise. -/
def renderChildren (spec : MetadataSpec) (items : List CtxVal) : List Element :=
  (spec.children.map (fun c =>
    if c.for_each then items.map (fun it => renderChild spec (itemCtx it) c)
    else [renderChild spec (itemCtx (CtxVal.vlist items)) c])).flatten

/-- Evaluate a `group_by` expression such as `item.version` for one item. -/
def evalGroupKey (gexpr : String) (it : CtxVal) : String :=
  resolvePath (splitPath gexpr.toList) (itemCtx it)

/-- The group template context: `group_key` and `group_count`. -/
def groupCtx (k : String) (n : Nat) : CtxVal :=
  CtxVal.vobj [("group_key", CtxVal.vstr k), ("group_count", CtxVal.vstr (toString n))]

/-- Render one item of a group. -/
def renderItem (spec : MetadataSpec) (ispec : ItemElemSpec) (it : CtxVal) : Element :=
  Element.mk (some spec.ns) ispec.element [] (renderAttrs (itemCtx it) ispec.attributes)
    "" (ispec.children.map (renderChild spec (itemCtx it)))

/-- Render one group element with its item elements. -/
def renderGroup (spec : MetadataSpec) (gspec : GroupElemSpec)
    (g : String × List CtxVal) : Element :=
  Element.mk (some spec.ns) gspec.element []
    (renderAttrs (groupCtx g.1 g.2.length) gspec.attributes) ""
    (g.2.map (renderItem spec gspec.item_element))

/-- The namespace declarations carried by a generated metadata root. -/
def rootDecls (spec : MetadataSpec) : List (Option String × String) :=
  [(spec.nsPrefix, spec.ns)]

/-- The generated root element with the given children. -/
def metadataRoot (spec : MetadataSpec) (children : List Element) : Element :=
  Element.mk (some spec.ns) spec.root_element (rootDecls spec)
    (renderAttrs (CtxVal.vobj []) spec.attributes) "" children

/-- Modelled from the spec: `MappingEngine.generate_metadata_from_config`
(implementation module `exporters/mapping_engine.py` is not in the source
tree). Empty source: a present-but-empty root when `allow_empty`, nothing
otherwise. Non-empty source: grouped rendering when `group_by` is set, plain
children rendering otherwise. -/
def generate_metadata (spec : MetadataSpec) (items : List CtxVal) : Option Element :=
  if items.isEmpty then
    if spec.allow_empty then some (metadataRoot spec []) else none
  else
    match spec.group_by, spec.group_element with
    | some gexpr, some gspec =>
      some (metadataRoot spec
        ((groupByKey (evalGroupKey gexpr) items).map (renderGroup spec gspec)))
    | _, _ => some (metadataRoot spec (renderChildren spec items))

/-- C6: for a record whose source field is empty the metadata generator
returns the present-but-empty (childless, textless, self-closing) root
element exactly when `allow_empty` is set, and nothing (the field is omitted,
result `none`) otherwise; being a total function it never raises for a
record-level data gap. -/
theorem claim_C6_allow_empty (spec : MetadataSpec) (items : List CtxVal)
    (h : items = []) :
    generate_metadata spec items =
      (if spec.allow_empty then some (metadataRoot spec []) else none) := by
  subst h
  simp [generate_metadata]

/-- Concrete metadata spec for the C6 witness: the `cis_controls` spec of the
empty-source test, with `allow_empty` set. -/
def c6spec : MetadataSpec :=
  { root_element := "cis_controls"
    ns := "http://cisecurity.org/controls"
    nsPrefix := some "controls"
    allow_empty := true
    group_by := none
    group_element := none
    attributes := []
    children := [] }

theorem claim_C6_witness :
    generate_metadata c6spec [] =
      (if c6spec.allow_empty then some (metadataRoot c6spec []) else none) :=
  claim_C6_allow_empty c6spec [] rfl

/-! ## Engine-state effects of map_rule and map_group (claim C3) -/

/-- The engine configuration slice relevant to rule mapping: the declared
rule elements (output field and content template) and the optional
metadata-channel field mapping (source field and metadata spec). -/
structure EngineConfig where
  rule_elements : List (String × String)
  metadata_field : Option (String × MetadataSpec)

/-- The mutable engine-level state observed by the exporter after mapping:
the Dublin Core buffer (`_dc_elements`) and the metadata buffer
(`_metadata_for_post_processing`) that `_inject_metadata_from_config`
consumes. -/
structure EngineState where
  dc_elements : List Element
  metadata_for_post_processing : List Element

/-- Extract the (list-valued) source field of a record context. -/
def getItems (rec : CtxVal) (field : String) : List CtxVal :=
  match rec with
  | CtxVal.vobj fields =>
    match ctxLookup fields field with
    | some (CtxVal.vlist l) => l
    | some CtxVal.vnone => []
    | some v => [v]
    | none => []
  | _ => []

/-- Modelled from the spec: `MappingEngine.map_rule` (implementation module
`exporters/mapping_engine.py` is not in the source tree) builds the rule
element from the declared rule-element templates; per the exporter's
documented storage pattern (`_inject_metadata_from_config`: the handler
builds the element and stores it in `_metadata_for_post_processing`), a
generated metadata element of the record is appended to the engine's
post-processing buffer. -/
def map_rule (cfg : EngineConfig) (rec ctx : CtxVal) (st : EngineState) :
    Element × EngineState :=
  let rule := Element.mk none "Rule" [] [] ""
    (cfg.rule_elements.map (fun fm =>
      Element.mk none fm.1 [] []
        (substitute fm.2 (CtxVal.vobj [("record", rec), ("context", ctx)])) []))
  match cfg.metadata_field with
  | some sf =>
    match generate_metadata sf.2 (getItems rec sf.1) with
    | some m =>
      (rule, { st with
        metadata_for_post_processing := st.metadata_for_post_processing ++ [m] })
    | none => (rule, st)
  | none => (rule, st)

/-- Modelled from the spec: `MappingEngine.map_group` wraps the already-built
rule in its group element; it touches no engine-level state. -/
def map_group (cfg : EngineConfig) (rec : CtxVal) (rule : Element) (ctx : CtxVal)
    (st : EngineState) : Element × EngineState :=
  (Element.mk none "Group" [] [] "" [rule], st)

/-- Concrete spec for the C3 counterexample: a metadata channel with
`allow_empty` set, so even an empty record stores a buffer element. -/
def c3spec : MetadataSpec :=
  { root_element := "cis_controls"
    ns := "http://cisecurity.org/controls"
    nsPrefix := some "controls"
    allow_empty := true
    group_by := none
    group_element := none
    attributes := []
    children := [] }

/-- Concrete engine configuration for the C3 counterexample. -/
def c3cfg : EngineConfig :=
  { rule_elements := [], metadata_field := some ("cis_controls", c3spec) }

/-- Concrete record for the C3 counterexample. -/
def c3rec : CtxVal := CtxVal.vobj [("cis_controls", CtxVal.vlist [])]

/-- Concrete engine state for the C3 counterexample. -/
def c3st : EngineState := { dc_elements := [], metadata_for_post_processing := [] }

/-- C3 counterexample: the claim that the observable engine state is
identical before and after a `map_rule` call fails on the code: for a style
with a metadata channel the call appends the record's generated metadata
element to the engine's `_metadata_for_post_processing` buffer (the
exporter's documented storage pattern reads exactly this buffer after
mapping). -/
theorem claim_C3_counterexample :
    (map_rule c3cfg c3rec (CtxVal.vobj []) c3st).2 ≠ c3st := by
  intro h
  have h2 := congrArg (fun s => s.metadata_for_post_processing.length) h
  simp [map_rule, c3cfg, c3rec, c3spec, c3st, generate_metadata, getItems,
    ctxLookup] at h2

/-- C3 amended: each `map_rule`/`map_group` invocation is deterministic and
its rule output depends only on its inputs, never on the engine's
accumulated buffers; `map_group` leaves the engine state unchanged, and the
only engine-level effect of `map_rule` is appending the record's generated
metadata element (at most one) to the post-processing buffer, all other
state intact. -/
theorem claim_C3_amended (cfg : EngineConfig) (rec ctx : CtxVal) (rule : Element)
    (st st' : EngineState) :
    (map_rule cfg rec ctx st).1 = (map_rule cfg rec ctx st').1 ∧
    (map_rule cfg rec ctx st).2.dc_elements = st.dc_elements ∧
    (∃ tail : List Element,
      (map_rule cfg rec ctx st).2.metadata_for_post_processing =
        st.metadata_for_post_processing ++ tail ∧ tail.length ≤ 1) ∧
    (map_group cfg rec rule ctx st).2 = st := by
  refine ⟨?_, ?_, ?_, rfl⟩ <;>
    rcases hmf : cfg.metadata_field with _ | sf
  · simp [map_rule, hmf]
  · rcases hg : generate_metadata sf.2 (getItems rec sf.1) with _ | m <;>
      simp [map_rule, hmf, hg]
  · simp [map_rule, hmf]
  · rcases hg : generate_metadata sf.2 (getItems rec sf.1) with _ | m <;>
      simp [map_rule, hmf, hg]
  · exact ⟨[], by simp [map_rule, hmf]⟩
  · rcases hg : generate_metadata sf.2 (getItems rec sf.1) with _ | m
    · exact ⟨[], by simp [map_rule, hmf, hg]⟩
    · exact ⟨[m], by simp [map_rule, hmf, hg]⟩

/-! ## Post-processing pipeline order (claim C2) -/

/-- Embedding of `XCCDFExporter._apply_post_processing`: Dublin Core
injection always runs first; the DISA-specific processors run only for the
`disa` style, before namespace cleanup; `XCCDFPostProcessor.process`
(namespace cleanup) runs for every style; the CIS metadata injection runs
only for the `cis` style, strictly after namespace cleanup. -/
def applyPostProcessing {α : Type} (style : String)
    (dcInject disaPasses nsCleanup cisInject : α → α) (doc : α) : α :=
  let d1 := dcInject doc
  let d2 := if style = "disa" then disaPasses d1 else d1
  let d3 := nsCleanup d2
  if style = "cis" then cisInject d3 else d3

/-- C2: the pipeline applies its passes in a fixed order for every input
document: sibling-dependent stitching (Dublin Core injection) and the
DISA-specific processors run before namespace canonicalization, and for the
cis style the stored metadata is injected strictly after namespace
canonicalization, so the injected metadata is never visited by the namespace
cleanup (in the trace instantiation the cleanup label precedes the metadata
label and never follows it). -/
theorem claim_C2_pipeline_order (α : Type)
    (dcInject disaPasses nsCleanup cisInject : α → α) (doc : α)
    (trace : List String) :
    applyPostProcessing "cis" dcInject disaPasses nsCleanup cisInject doc =
      cisInject (nsCleanup (dcInject doc)) ∧
    applyPostProcessing "disa" dcInject disaPasses nsCleanup cisInject doc =
      nsCleanup (disaPasses (dcInject doc)) ∧
    applyPostProcessing "cis" (fun t => t ++ ["dc"]) (fun t => t ++ ["disa"])
        (fun t => t ++ ["ns_cleanup"]) (fun t => t ++ ["metadata_inject"]) trace =
      trace ++ ["dc", "ns_cleanup", "metadata_inject"] := by
  refine ⟨?_, ?_, ?_⟩
  · simp [applyPostProcessing]
  · simp [applyPostProcessing]
  · simp [applyPostProcessing]

/-! ## Positional metadata injection into serialized Rules (claim C10)

Embedding of `XCCDFExporter._inject_metadata_from_config`: the stored
metadata elements are paired positionally with the `Rule` elements in
document order; each is wrapped in a `metadata` child appended to its rule;
the loop stops when the stored list runs out; an empty stored list returns
the document unchanged. -/

mutual
/-- All elements with local name `Rule`, in document (pre-order) order, as
collected by the descendant-rule xpath of the source. -/
def rulesE (e : Element) : List Element :=
  match e with
  | Element.mk ens ln d a t cs =>
    (if ln = "Rule" then [Element.mk ens ln d a t cs] else []) ++ rulesL cs

/-- Document-order rule collection over a forest. -/
def rulesL (es : List Element) : List Element :=
  match es with
  | [] => []
  | c :: cs => rulesE c ++ rulesL cs
end

/-- The `metadata` wrapper appended to a rule: a `metadata` child in the
document namespace whose only child is the stored element. -/
def metadataWrapper (ns : Option String) (m : Element) : Element :=
  Element.mk ns "metadata" [] [] "" [m]

/-- Append one child to an element. -/
def appendChild : Element → Element → Element
  | Element.mk ens ln d a t cs, w => Element.mk ens ln d a t (cs ++ [w])

mutual
/-- Embedding of the injection loop of `_inject_metadata_from_config`:
pre-order traversal threading the running rule index; the `k`-th rule in
document order receives the `k`-th stored element (when one exists) as an
appended `metadata` wrapper. -/
def injectE (ns : Option String) (ms : List Element) (e : Element) (k : Nat) :
    Element × Nat :=
  match e with
  | Element.mk ens ln d a t cs =>
    if ln = "Rule" then
      let r := injectL ns ms cs (k + 1)
      if hk : k < ms.length then
        (Element.mk ens ln d a t (r.1 ++ [metadataWrapper ns (ms.get ⟨k, hk⟩)]), r.2)
      else (Element.mk ens ln d a t r.1, r.2)
    else
      let r := injectL ns ms cs k
      (Element.mk ens ln d a t r.1, r.2)

/-- The injection loop over a forest, threading the rule index. -/
def injectL (ns : Option String) (ms : List Element) (es : List Element) (k : Nat) :
    List Element × Nat :=
  match es with
  | [] => ([], k)
  | c :: cs =>
    let rc := injectE ns ms c k
    let rcs := injectL ns ms cs rc.2
    (rc.1 :: rcs.1, rcs.2)
end

/-- Top-level injection: an empty stored list returns the document
unchanged, mirroring the early return of the source. -/
def injectMetadata (ns : Option String) (ms : List Element) (doc : Element) :
    Element :=
  if ms.isEmpty then doc else (injectE ns ms doc 0).1

/-- The spec-side positional transform of the document-order rule list: the
rule at running index `k` receives stored element `k` as an appended
`metadata` wrapper when `k` is in range, and is left unchanged otherwise. -/
def tfRules (ns : Option String) (ms : List Element) : Nat → List Element → List Element
  | _, [] => []
  | k, r :: rs =>
    (if hk : k < ms.length then appendChild r (metadataWrapper ns (ms.get ⟨k, hk⟩))
     else r) :: tfRules ns ms (k + 1) rs

/-- No rule of the forest nests another rule among its descendants. -/
def NoNestedL (es : List Element) : Prop :=
  ∀ r ∈ rulesL es, rulesL r.children = []

/-- No rule of the document nests another rule among its descendants. -/
def NoNestedE (e : Element) : Prop :=
  ∀ r ∈ rulesE e, rulesL r.children = []

theorem rulesL_append (as bs : List Element) :
    rulesL (as ++ bs) = rulesL as ++ rulesL bs := by
  induction as with
  | nil => simp [rulesL]
  | cons c cs ih =>
    rw [List.cons_append, rulesL, rulesL, ih, List.append_assoc]

theorem tfRules_append (ns : Option String) (ms : List Element) (xs ys : List Element)
    (k : Nat) : tfRules ns ms k (xs ++ ys) =
      tfRules ns ms k xs ++ tfRules ns ms (k + xs.length) ys := by
  induction xs generalizing k with
  | nil => simp [tfRules]
  | cons r rs ih =>
    rw [List.cons_append, tfRules, tfRules, ih (k + 1)]
    simp only [List.length_cons]
    have he : k + (rs.length + 1) = k + 1 + rs.length := by omega
    rw [he, List.cons_append]

theorem tfRules_ge (ns : Option String) (ms : List Element) (xs : List Element)
    (k : Nat) (hk : ms.length ≤ k) : tfRules ns ms k xs = xs := by
  induction xs generalizing k with
  | nil => rfl
  | cons r rs ih =>
    rw [tfRules, dif_neg (by omega), ih (k + 1) (by omega)]

theorem inject_id_L (ns : Option String) (ms : List Element) (es : List Element) :
    rulesL es = [] → ∀ k, injectL ns ms es k = (es, k) := by
  refine rulesL.induct
    (fun e => rulesE e = [] → ∀ k, injectE ns ms e k = (e, k))
    (fun es => rulesL es = [] → ∀ k, injectL ns ms es k = (es, k))
    ?_ ?_ ?_ es
  · intro ens ln d a t cs ih hr k
    simp only [rulesE] at hr
    rw [List.append_eq_nil] at hr
    have hln : ¬ln = "Rule" := by
      intro hc
      simp [hc] at hr
    rw [injectE, if_neg hln, ih hr.2 k]
  · intro _ k
    rfl
  · intro c cs ihc ihcs hr k
    simp only [rulesL] at hr
    rw [List.append_eq_nil] at hr
    rw [injectL]
    simp only [ihc hr.1 k, ihcs hr.2 k]

theorem rulesL_singleton (x : Element) : rulesL [x] = rulesE x := by
  rw [rulesL, rulesL]
  simp

theorem inject_rules_L (ns : Option String) (ms : List Element)
    (hms : ∀ m ∈ ms, rulesE m = []) (es : List Element) :
    NoNestedL es → ∀ k,
      (injectL ns ms es k).2 = k + (rulesL es).length ∧
      rulesL (injectL ns ms es k).1 = tfRules ns ms k (rulesL es) := by
  refine rulesL.induct
    (fun e => NoNestedE e → ∀ k,
      (injectE ns ms e k).2 = k + (rulesE e).length ∧
      rulesE (injectE ns ms e k).1 = tfRules ns ms k (rulesE e))
    (fun es => NoNestedL es → ∀ k,
      (injectL ns ms es k).2 = k + (rulesL es).length ∧
      rulesL (injectL ns ms es k).1 = tfRules ns ms k (rulesL es))
    ?_ ?_ ?_ es
  · intro ens ln d a t cs ih hnest k
    by_cases hln : ln = "Rule"
    · subst hln
      have hcs : rulesL cs = [] := by
        have hr := hnest (Element.mk ens "Rule" d a t cs) (by
          rw [rulesE]
          simp)
        simpa [Element.children] using hr
      have hid := inject_id_L ns ms cs hcs (k + 1)
      have hrE : rulesE (Element.mk ens "Rule" d a t cs) =
          [Element.mk ens "Rule" d a t cs] := by
        rw [rulesE, hcs]
        simp
      have hpair : injectE ns ms (Element.mk ens "Rule" d a t cs) k =
          (if hk : k < ms.length
           then Element.mk ens "Rule" d a t
             (cs ++ [metadataWrapper ns (ms.get ⟨k, hk⟩)])
           else Element.mk ens "Rule" d a t cs, k + 1) := by
        rw [injectE, if_pos rfl]
        simp only [hid]
        by_cases hk : k < ms.length
        · rw [dif_pos hk, dif_pos hk]
        · rw [dif_neg hk, dif_neg hk]
      rw [hpair, hrE]
      constructor
      · simp [tfRules]
      · rw [tfRules, tfRules]
        by_cases hk : k < ms.length
        · rw [dif_pos hk, dif_pos hk]
          have hwrap : rulesE (metadataWrapper ns (ms.get ⟨k, hk⟩)) = [] := by
            rw [metadataWrapper, rulesE, rulesL_singleton,
              hms (ms.get ⟨k, hk⟩) (ms.get_mem _ _)]
            simp
          rw [rulesE, rulesL_append, hcs, rulesL_singleton, hwrap]
          simp [appendChild]
        · rw [dif_neg hk, dif_neg hk, hrE]
    · have hncs : NoNestedL cs := by
        intro r hr
        apply hnest
        rw [rulesE, if_neg hln]
        simpa using hr
      rcases ih hncs k with ⟨ih1, ih2⟩
      have hrE : rulesE (Element.mk ens ln d a t cs) = rulesL cs := by
        rw [rulesE, if_neg hln]
        simp
      have hpair : injectE ns ms (Element.mk ens ln d a t cs) k =
          (Element.mk ens ln d a t (injectL ns ms cs k).1,
           (injectL ns ms cs k).2) := by
        rw [injectE, if_neg hln]
      rw [hpair, hrE]
      refine ⟨by simpa using ih1, ?_⟩
      rw [rulesE, if_neg hln]
      simpa using ih2
  · intro _ k
    simp [injectL, rulesL, tfRules]
  · intro c cs ihc ihcs hnest k
    have hnc : NoNestedE c := by
      intro r hr
      apply hnest
      rw [rulesL]
      exact List.mem_append_left _ hr
    have hncs : NoNestedL cs := by
      intro r hr
      apply hnest
      rw [rulesL]
      exact List.mem_append_right _ hr
    rcases ihc hnc k with ⟨h1, h2⟩
    rcases ihcs hncs ((injectE ns ms c k).2) with ⟨h3, h4⟩
    have hpair : injectL ns ms (c :: cs) k =
        ((injectE ns ms c k).1 :: (injectL ns ms cs ((injectE ns ms c k).2)).1,
         (injectL ns ms cs ((injectE ns ms c k).2)).2) := by
      rw [injectL]
    rw [hpair]
    dsimp only
    constructor
    · rw [h3, h1, rulesL, List.length_append]
      omega
    · rw [rulesL, rulesL, h2, h4, h1, tfRules_append]

/-- C10: injection pairs stored metadata elements with `Rule` elements
positionally: over a document whose rules do not nest and stored elements
that contain no rules, the document-order rule list of the result is the
input rule list transformed index by index — the `i`-th rule receives the
`i`-th stored element wrapped in an appended `metadata` child when `i` is in
range and is left unchanged otherwise (the loop stops, no index error); an
empty stored list returns the document unchanged. -/
theorem claim_C10_positional_injection (ns : Option String) (ms : List Element)
    (doc : Element) (hnest : NoNestedE doc) (hms : ∀ m ∈ ms, rulesE m = []) :
    rulesE (injectMetadata ns ms doc) = tfRules ns ms 0 (rulesE doc) ∧
    injectMetadata ns [] doc = doc ∧
    tfRules ns ms ms.length (rulesE doc) = rulesE doc := by
  refine ⟨?_, by simp [injectMetadata], tfRules_ge ns ms _ _ (le_refl _)⟩
  by_cases hempty : ms.isEmpty
  · rw [injectMetadata, if_pos hempty]
    have hnil : ms = [] := by
      cases ms with
      | nil => rfl
      | cons m ms' => simp [List.isEmpty] at hempty
    subst hnil
    rw [tfRules_ge _ [] _ 0 (by simp)]
  · rw [injectMetadata, if_neg hempty]
    have hnl : NoNestedL [doc] := by
      intro r hr
      apply hnest
      rwa [rulesL_singleton] at hr
    rcases inject_rules_L ns ms hms [doc] hnl 0 with ⟨_, h2⟩
    have e1 : injectL ns ms [doc] 0 =
        ([(injectE ns ms doc 0).1], (injectE ns ms doc 0).2) := by
      rw [injectL, injectL]
    rw [e1, rulesL_singleton, rulesL_singleton] at h2
    exact h2

/-- First concrete rule for the C10 witness. -/
def c10rule1 : Element := Element.mk none "Rule" [] [("id", "r1")] "" []

/-- Second concrete rule for the C10 witness. -/
def c10rule2 : Element := Element.mk none "Rule" [] [("id", "r2")] "" []

/-- Concrete two-rule document for the C10 witness. -/
def c10doc : Element :=
  Element.mk none "Benchmark" [] [] ""
    [Element.mk none "Group" [] [] "" [c10rule1],
     Element.mk none "Group" [] [] "" [c10rule2]]

/-- Concrete stored metadata element for the C10 witness. -/
def c10meta : Element :=
  Element.mk (some "http://cisecurity.org/controls") "cis_controls" [] [] "" []

theorem claim_C10_witness :
    rulesE (injectMetadata none [c10meta] c10doc) =
      tfRules none [c10meta] 0 (rulesE c10doc) ∧
    injectMetadata none [] c10doc = c10doc ∧
    tfRules none [c10meta] ([c10meta]).length (rulesE c10doc) = rulesE c10doc :=
  claim_C10_positional_injection none [c10meta] c10doc
    (by
      intro r hr
      have he : rulesE c10doc = [c10rule1, c10rule2] := rfl
      rw [he] at hr
      rcases List.mem_cons.mp hr with rfl | hr
      · rfl
      · rcases List.mem_singleton.mp hr with rfl
        rfl)
    (by
      intro m hm
      rcases List.mem_singleton.mp hm with rfl
      rfl)

/-! ## Namespace canonicalization (claim C8) -/

mutual
/-- Count over the whole tree the namespace declarations satisfying `p`. -/
def declCountE (p : Option String × String → Bool) (e : Element) : Nat :=
  match e with
  | Element.mk _ _ d _ _ cs => (d.filter p).length + declCountL p cs

/-- Declaration count over a forest. -/
def declCountL (p : Option String × String → Bool) (es : List Element) : Nat :=
  match es with
  | [] => 0
  | c :: cs => declCountE p c + declCountL p cs
end

/-- A default-namespace declaration (`xmlns=`). -/
def isDefaultDecl : Option String × String → Bool
  | (none, _) => true
  | (some _, _) => false

/-- An auto-generated prefixed redeclaration (`xmlns:ns0=`, `xmlns:ns1=`,
...): a prefixed declaration whose prefix starts with `ns`. -/
def isNsPrefixedDecl : Option String × String → Bool
  | (some q, _) => List.isPrefixOf ['n', 's'] q.toList
  | (none, _) => false

mutual
/-- Remove every namespace declaration from every element of the tree. -/
def stripDeclsE : Element → Element
  | Element.mk ens ln _ a t cs => Element.mk ens ln [] a t (stripDeclsL cs)

/-- Declaration removal over a forest. -/
def stripDeclsL : List Element → List Element
  | [] => []
  | c :: cs => stripDeclsE c :: stripDeclsL cs
end

/-- Modelled from the spec: `XCCDFPostProcessor.process` (implementation
module `utils/xml_utils.py` is not in the source tree) canonicalizes
namespaces by collapsing every declared prefix down to a single default
namespace declaration at the document root, leaving no prefixed
redeclaration anywhere in the tree. -/
def process (defaultNs : String) (doc : Element) : Element :=
  match doc with
  | Element.mk ens ln _ a t cs =>
    Element.mk ens ln [(none, defaultNs)] a t (stripDeclsL cs)

theorem declCount_strip_L (p : Option String × String → Bool) (es : List Element) :
    declCountL p (stripDeclsL es) = 0 := by
  refine stripDeclsL.induct (fun e => declCountE p (stripDeclsE e) = 0)
    (fun es => declCountL p (stripDeclsL es) = 0) ?_ ?_ ?_ es
  · intro ens ln d a t cs ih
    rw [stripDeclsE, declCountE, ih]
    simp
  · rfl
  · intro c cs ihc ihcs
    rw [stripDeclsL, declCountL, ihc, ihcs]

theorem declCountL_append (p : Option String × String → Bool) (as bs : List Element) :
    declCountL p (as ++ bs) = declCountL p as + declCountL p bs := by
  induction as with
  | nil => simp [declCountL]
  | cons c cs ih =>
    rw [List.cons_append, declCountL, declCountL, ih]
    omega

theorem inject_declCount_L (p : Option String × String → Bool) (ns : Option String)
    (ms : List Element) (hms : ∀ m ∈ ms, declCountE p m = 0) (es : List Element) :
    ∀ k, declCountL p (injectL ns ms es k).1 = declCountL p es := by
  refine rulesL.induct
    (fun e => ∀ k, declCountE p (injectE ns ms e k).1 = declCountE p e)
    (fun es => ∀ k, declCountL p (injectL ns ms es k).1 = declCountL p es)
    ?_ ?_ ?_ es
  · intro ens ln d a t cs ih k
    by_cases hln : ln = "Rule"
    · subst hln
      rw [injectE, if_pos rfl]
      by_cases hk : k < ms.length
      · rw [dif_pos hk]
        dsimp only
        rw [declCountE, declCountE, declCountL_append, ih (k + 1)]
        have hw : declCountL p [metadataWrapper ns (ms.get ⟨k, hk⟩)] = 0 := by
          rw [declCountL, declCountL, metadataWrapper, declCountE, declCountL,
            declCountL, hms (ms.get ⟨k, hk⟩) (ms.get_mem _ _)]
          simp
        rw [hw]
        omega
      · rw [dif_neg hk]
        dsimp only
        rw [declCountE, declCountE, ih (k + 1)]
    · rw [injectE, if_neg hln]
      dsimp only
      rw [declCountE, declCountE, ih k]
  · intro k
    rfl
  · intro c cs ihc ihcs k
    rw [injectL]
    dsimp only
    rw [declCountL, declCountL, ihc k, ihcs _]

theorem inject_declCount_le_L (p : Option String × String → Bool)
    (ns : Option String) (ms : List Element) (es : List Element) :
    ∀ k, declCountL p es ≤ declCountL p (injectL ns ms es k).1 := by
  refine rulesL.induct
    (fun e => ∀ k, declCountE p e ≤ declCountE p (injectE ns ms e k).1)
    (fun es => ∀ k, declCountL p es ≤ declCountL p (injectL ns ms es k).1)
    ?_ ?_ ?_ es
  · intro ens ln d a t cs ih k
    by_cases hln : ln = "Rule"
    · subst hln
      rw [injectE, if_pos rfl]
      by_cases hk : k < ms.length
      · rw [dif_pos hk]
        dsimp only
        rw [declCountE, declCountE, declCountL_append]
        have := ih (k + 1)
        omega
      · rw [dif_neg hk]
        dsimp only
        rw [declCountE, declCountE]
        have := ih (k + 1)
        omega
    · rw [injectE, if_neg hln]
      dsimp only
      rw [declCountE, declCountE]
      have := ih k
      omega
  · intro k
    exact le_refl _
  · intro c cs ihc ihcs k
    rw [injectL]
    dsimp only
    rw [declCountL, declCountL]
    have h1 := ihc k
    have h2 := ihcs ((injectE ns ms c k).2)
    omega

theorem process_defaultCount (defaultNs : String) (doc : Element) :
    declCountE isDefaultDecl (process defaultNs doc) = 1 := by
  cases doc with
  | mk ens ln d a t cs =>
    rw [process, declCountE, declCount_strip_L]
    rfl

theorem process_badCount (defaultNs : String) (doc : Element) :
    declCountE isNsPrefixedDecl (process defaultNs doc) = 0 := by
  cases doc with
  | mk ens ln d a t cs =>
    rw [process, declCountE, declCount_strip_L]
    rfl

/-- C8: after post-processing, for every style and every input document the
result carries at least one default-namespace declaration and exactly zero
`xmlns:ns*` prefixed redeclarations: directly after the namespace-cleanup
pass (the disa path, no metadata channel), and still after the cis-style
metadata injection, provided the stored metadata elements carry no
`ns*`-prefixed declaration (the generator declares configured prefixes such
as `controls`). -/
theorem claim_C8_namespace_canonical (defaultNs : String) (doc : Element)
    (ns : Option String) (ms : List Element)
    (hms : ∀ m ∈ ms, declCountE isNsPrefixedDecl m = 0) :
    1 ≤ declCountE isDefaultDecl (process defaultNs doc) ∧
    declCountE isNsPrefixedDecl (process defaultNs doc) = 0 ∧
    1 ≤ declCountE isDefaultDecl (injectMetadata ns ms (process defaultNs doc)) ∧
    declCountE isNsPrefixedDecl (injectMetadata ns ms (process defaultNs doc)) = 0 := by
  refine ⟨le_of_eq (process_defaultCount defaultNs doc).symm,
    process_badCount defaultNs doc, ?_, ?_⟩
  · by_cases hempty : ms.isEmpty
    · rw [injectMetadata, if_pos hempty]
      exact le_of_eq (process_defaultCount defaultNs doc).symm
    · rw [injectMetadata, if_neg hempty]
      have h := inject_declCount_le_L isDefaultDecl ns ms [process defaultNs doc] 0
      have e1 : injectL ns ms [process defaultNs doc] 0 =
          ([(injectE ns ms (process defaultNs doc) 0).1],
           (injectE ns ms (process defaultNs doc) 0).2) := by
        rw [injectL, injectL]
      rw [e1] at h
      have h2 : declCountL isDefaultDecl [process defaultNs doc] = 1 := by
        rw [declCountL, declCountL, process_defaultCount]
      have h3 : declCountL isDefaultDecl
          [(injectE ns ms (process defaultNs doc) 0).1] =
          declCountE isDefaultDecl (injectE ns ms (process defaultNs doc) 0).1 := by
        rw [declCountL, declCountL]
        omega
      rw [h2, h3] at h
      exact h
  · by_cases hempty : ms.isEmpty
    · rw [injectMetadata, if_pos hempty]
      exact process_badCount defaultNs doc
    · rw [injectMetadata, if_neg hempty]
      have h := inject_declCount_L isNsPrefixedDecl ns ms hms [process defaultNs doc] 0
      have e1 : injectL ns ms [process defaultNs doc] 0 =
          ([(injectE ns ms (process defaultNs doc) 0).1],
           (injectE ns ms (process defaultNs doc) 0).2) := by
        rw [injectL, injectL]
      rw [e1] at h
      have h2 : declCountL isNsPrefixedDecl [process defaultNs doc] = 0 := by
        rw [declCountL, declCountL, process_badCount]
      rw [h2] at h
      have h3 : declCountL isNsPrefixedDecl
          [(injectE ns ms (process defaultNs doc) 0).1] =
          declCountE isNsPrefixedDecl (injectE ns ms (process defaultNs doc) 0).1 := by
        rw [declCountL, declCountL]
        omega
      rw [h3] at h
      simpa using h

/-- Concrete document with stray prefixed declarations for the C8 witness. -/
def c8doc : Element :=
  Element.mk (some "http://checklists.nist.gov/xccdf/1.2") "Benchmark"
    [(some "ns0", "http://checklists.nist.gov/xccdf/1.2")] [] ""
    [Element.mk (some "http://checklists.nist.gov/xccdf/1.2") "Rule"
      [(some "ns1", "http://purl.org/dc/elements/1.1/")] [] "" []]

/-- Concrete stored metadata element for the C8 witness: it declares the
configured `controls` prefix, which is not an `ns*` prefix. -/
def c8meta : Element :=
  Element.mk (some "http://cisecurity.org/controls") "cis_controls"
    [(some "controls", "http://cisecurity.org/controls")] [] "" []

theorem claim_C8_witness :
    1 ≤ declCountE isDefaultDecl
        (process "http://checklists.nist.gov/xccdf/1.2" c8doc) ∧
    declCountE isNsPrefixedDecl
        (process "http://checklists.nist.gov/xccdf/1.2" c8doc) = 0 ∧
    1 ≤ declCountE isDefaultDecl (injectMetadata none [c8meta]
        (process "http://checklists.nist.gov/xccdf/1.2" c8doc)) ∧
    declCountE isNsPrefixedDecl (injectMetadata none [c8meta]
        (process "http://checklists.nist.gov/xccdf/1.2" c8doc)) = 0 :=
  claim_C8_namespace_canonical "http://checklists.nist.gov/xccdf/1.2" c8doc
    none [c8meta]
    (by
      intro m hm
      rcases List.mem_singleton.mp hm with rfl
      rfl)

end CisBench
